import Mathlib

/-!
Verification of the shortest-path core of the DijkstrasVisualizer repository
(file src/Graph.jsx): graph construction (generateNodes, generateEdges) and
Dijkstra's algorithm with an exploration trace (dijkstra).

Modelling conventions.

Numbers: the source computes with JavaScript doubles.  We embed them as
rationals; `Infinity` becomes the top element of `WithTop ℚ`.

Euclidean distance: calculateDistance returns Math.hypot dx dy, the square
root of dx^2 + dy^2, which is irrational in general.  We embed the squared
distance, which is rational, and translate every comparison against it in a
square-compatible way: the source guard calculateDistance node target <
maxDistance holds over the reals exactly when 0 < maxDistance and the squared
distance is < maxDistance^2, which is how `withinRange` is written below.  An
edge's stored weight is likewise the squared distance; the square root is a
strictly monotone map, so order comparisons and nonnegativity, which is all
the verified claims use of generated weights, transfer unchanged.

Objects used as maps: the source keeps distances and previous as plain JS
objects keyed by node id.  Reading an absent key yields undefined.  Every read
of distances performed by the algorithm is at a key that was initialised
(a node id, or startId), so distances is embedded as a total function defaulting
to top.  previous, however, is read at endId during path reconstruction, and
endId may be absent; so previous is embedded with an explicit undefined:
`none` is an absent key (JS undefined), `some none` is the value null, and
`some (some k)` is the node id k.

Array.prototype.sort: the ECMAScript SortCompare operation maps a NaN
comparator result (here arising as Infinity - Infinity) to +0, and sort is
required to be stable, so the source's re-sort is a stable sort by tentative
distance in which both-infinite pairs compare equal.  `sortPend` is a stable
insertion sort by the same key, hence produces the identical ordering.

Loops: the while loop over unvisitedNodes removes exactly one element per
iteration, so running `dijkstraLoop` with fuel equal to the pending list's
length is exact: fuel reaches 0 precisely when the JS loop condition fails.
The path-reconstruction while loop does not terminate on some inputs (see the
theorem for claim C2); `walkPrev` is fuel-limited and returns `none` when the
fuel is exhausted, and fuel nodes.length + 1 is shown sufficient for every
terminating configuration the claims touch.
-/

/-- A graph node as built by generateNodes: an id and plane coordinates. -/
structure Node where
  id : ℕ
  x : ℚ
  y : ℚ
deriving DecidableEq, Repr

/-- An edge record as pushed by generateEdges: the two endpoint node objects
and the weight.  The source stores whole node objects, and dijkstra reads
edge.source.id / edge.target.id, so we keep the node values. -/
structure Edge where
  source : Node
  target : Node
  weight : ℚ
deriving DecidableEq, Repr

/-- Squared Euclidean distance.  The source's calculateDistance is
Math.hypot (n1.x - n2.x) (n1.y - n2.y); we carry its square (see the header
comment on the distance embedding). -/
def calculateDistanceSq (node1 node2 : Node) : ℚ :=
  (node1.x - node2.x) ^ 2 + (node1.y - node2.y) ^ 2

/-- The edge-generation guard calculateDistance node target < maxDistance of
the source, written square-compatibly: a nonnegative square root is below
maxDistance iff maxDistance is positive and the radicand is below its square. -/
def withinRange (node target : Node) (maxDistance : ℚ) : Prop :=
  0 < maxDistance ∧ calculateDistanceSq node target < maxDistance ^ 2

instance (node target : Node) (maxDistance : ℚ) :
    Decidable (withinRange node target maxDistance) :=
  inferInstanceAs (Decidable (_ ∧ _))

/-- generateNodes of the source.  Math.random is modelled as an ambient
stream rand of draws, consumed two per node (x first, then y), so node i reads
draws 2*i and 2*i+1.  Ids are 0..count-1 in generation order. -/
def generateNodes (count : ℕ) (width height : ℚ) (rand : ℕ → ℚ) : List Node :=
  (List.range count).map fun i =>
    { id := i, x := rand (2 * i) * width, y := rand (2 * i + 1) * height }

/-- generateEdges of the source: the nested forEach over ordered pairs,
pushing an edge when the ids differ and the pair is within range. -/
def generateEdges (nodes : List Node) (maxDistance : ℚ) : List Edge :=
  nodes.flatMap fun node =>
    nodes.filterMap fun target =>
      if node.id ≠ target.id ∧ withinRange node target maxDistance then
        some { source := node, target := target, weight := calculateDistanceSq node target }
      else none

/-- Pointwise update of a function used to model assignment to a JS object key. -/
def updFn {α : Type} (f : ℕ → α) (k : ℕ) (v : α) : ℕ → α :=
  fun j => if j = k then v else f j

/-- The mutable state of one dijkstra invocation.  pops records the nodes
passed to the onStep callback, in call order (the source adds the node's id to
the visited set immediately before calling onStep, so visited always equals
the reverse of the ids of pops). -/
structure DijkstraState where
  distances : ℕ → WithTop ℚ
  previous : ℕ → Option (Option ℕ)
  visited : List ℕ
  pending : List Node
  exploredEdges : List Edge
  pops : List Node

/-- The neighbor selection of the source relaxation step: if the edge's source
is the current node the neighbor is the target, otherwise the source. -/
def neighborOf (currentId : ℕ) (e : Edge) : Node :=
  if e.source.id = currentId then e.target else e.source

/-- One edge examination of the relaxation forEach: skip visited neighbors,
and on a strict improvement update distance and predecessor and append the
edge to exploredEdges. -/
def relaxEdge (current : Node) (st : DijkstraState) (e : Edge) : DijkstraState :=
  let neighbor := neighborOf current.id e
  if neighbor.id ∈ st.visited then st
  else
    let newDistance := st.distances current.id + (e.weight : WithTop ℚ)
    if newDistance < st.distances neighbor.id then
      { st with
        distances := updFn st.distances neighbor.id newDistance
        previous := updFn st.previous neighbor.id (some (some current.id))
        exploredEdges := st.exploredEdges ++ [e] }
    else st

/-- Incidence test of the source's edge filter. -/
def incident (currentId : ℕ) (e : Edge) : Prop :=
  e.source.id = currentId ∨ e.target.id = currentId

instance (currentId : ℕ) (e : Edge) : Decidable (incident currentId e) :=
  inferInstanceAs (Decidable (_ ∨ _))

/-- The relaxation pass over all edges touching the current node. -/
def relaxAll (edges : List Edge) (current : Node) (st : DijkstraState) : DijkstraState :=
  (edges.filter fun e => decide (incident current.id e)).foldl (relaxEdge current) st

/-- Stable insertion of a node into a list sorted by tentative distance:
the node goes in front of the first element it is less-or-equal to, so equal
keys keep their relative order, exactly like the stable Array.prototype.sort
with the source's comparator (see the header comment). -/
def insertPend (d : ℕ → WithTop ℚ) (a : Node) : List Node → List Node
  | [] => [a]
  | b :: l => if d a.id ≤ d b.id then a :: b :: l else b :: insertPend d a l

/-- Stable sort of the pending list by tentative distance. -/
def sortPend (d : ℕ → WithTop ℚ) : List Node → List Node
  | [] => []
  | a :: l => insertPend d a (sortPend d l)

/-- The main while loop of dijkstra.  Fuel counts the remaining pending
nodes (each iteration removes exactly one, see the header comment).
Each iteration re-sorts pending, shifts the front node, breaks if its
distance is Infinity or it is the end node, and otherwise marks it visited,
notifies onStep (recorded in pops) and relaxes its incident edges. -/
def dijkstraLoop (edges : List Edge) (endId : ℕ) : ℕ → DijkstraState → DijkstraState
  | 0, st => st
  | fuel + 1, st =>
    match sortPend st.distances st.pending with
    | [] => st
    | current :: rest =>
      if st.distances current.id = ⊤ then { st with pending := rest }
      else if current.id = endId then { st with pending := rest }
      else
        dijkstraLoop edges endId fuel
          (relaxAll edges current
            { st with
              pending := rest
              visited := current.id :: st.visited
              pops := st.pops ++ [current] })

/-- Initial distances: Infinity for every node id, then 0 at startId. -/
def initDistances (nodes : List Node) (startId : ℕ) : ℕ → WithTop ℚ :=
  updFn (nodes.foldl (fun f n => updFn f n.id ⊤) fun _ => ⊤) startId 0

/-- Initial predecessors: null (some none) for every node id, undefined
(none) elsewhere. -/
def initPrevious (nodes : List Node) : ℕ → Option (Option ℕ) :=
  nodes.foldl (fun f n => updFn f n.id (some none)) fun _ => none

/-- The state at loop entry. -/
def initState (nodes : List Node) (startId : ℕ) : DijkstraState :=
  { distances := initDistances nodes startId
    previous := initPrevious nodes
    visited := []
    pending := nodes
    exploredEdges := []
    pops := [] }

/-- The path-reconstruction while loop: while currentId !== null, unshift
currentId and follow previous.  The cursor is some (some k) for a node id,
some none for null, and none for undefined; reading previous at an undefined
cursor yields undefined again (the JS object has no such key), which is why
the loop diverges there.  A none result means the fuel ran out, i.e. the JS
loop has not terminated within fuel steps. -/
def walkPrev (previous : ℕ → Option (Option ℕ)) :
    ℕ → Option (Option ℕ) → List ℕ → Option (List ℕ)
  | 0, _, _ => none
  | _ + 1, some none, acc => some acc
  | fuel + 1, some (some k), acc => walkPrev previous fuel (previous k) (k :: acc)
  | fuel + 1, none, acc => walkPrev previous fuel none acc

/-- The state after the main loop of dijkstra nodes edges startId endId. -/
def dijkstraRun (nodes : List Node) (edges : List Edge) (startId endId : ℕ) : DijkstraState :=
  dijkstraLoop edges endId nodes.length (initState nodes startId)

/-- The value returned by dijkstra: the reconstructed path and the
exploration trace.  path is none when the reconstruction loop diverges. -/
structure DijkstraResult where
  path : Option (List ℕ)
  exploredEdges : List Edge
deriving DecidableEq, Repr

/-- The dijkstra function of the source: run the loop, then reconstruct the
path by walking previous backward from endId. -/
def dijkstra (nodes : List Node) (edges : List Edge) (startId endId : ℕ) : DijkstraResult :=
  let st := dijkstraRun nodes edges startId endId
  { path := walkPrev st.previous (nodes.length + 1) (some (some endId)) []
    exploredEdges := st.exploredEdges }

/-- Well-formedness of a graph as produced by the builder and assumed by the
spec's data model: node ids are pairwise distinct, edges join nodes of the
graph, and weights are Euclidean distances, hence nonnegative. -/
structure WF (nodes : List Node) (edges : List Edge) : Prop where
  nodup : (nodes.map Node.id).Nodup
  srcMem : ∀ e ∈ edges, e.source ∈ nodes
  tgtMem : ∀ e ∈ edges, e.target ∈ nodes
  wNonneg : ∀ e ∈ edges, 0 ≤ e.weight

/-- An edge joins the ids a and b, in either direction. -/
def EdgeConnects (e : Edge) (a b : ℕ) : Prop :=
  (e.source.id = a ∧ e.target.id = b) ∨ (e.source.id = b ∧ e.target.id = a)

/-- IsPath edges p w: p is a nonempty vertex sequence whose consecutive pairs
are joined by edges of the graph, and w is the sum of those edges' weights. -/
inductive IsPath (edges : List Edge) : List ℕ → ℚ → Prop
  | single (a : ℕ) : IsPath edges [a] 0
  | cons {b : ℕ} {l : List ℕ} {w : ℚ} (a : ℕ) (e : Edge) (he : e ∈ edges)
      (hab : EdgeConnects e a b) (h : IsPath edges (b :: l) w) :
      IsPath edges (a :: b :: l) (e.weight + w)

/-! Basic facts about the state components. -/

theorem updFn_self {α : Type} (f : ℕ → α) (k : ℕ) (v : α) : updFn f k v k = v := by
  simp [updFn]

theorem updFn_ne {α : Type} (f : ℕ → α) (k : ℕ) (v : α) {j : ℕ} (h : j ≠ k) :
    updFn f k v j = f j := by
  simp [updFn, h]

theorem foldl_top_eq (nodes : List Node) (f : ℕ → WithTop ℚ) (hf : ∀ k, f k = ⊤) :
    ∀ k, nodes.foldl (fun g n => updFn g n.id ⊤) f k = ⊤ := by
  induction nodes generalizing f with
  | nil => exact hf
  | cons n ns ih =>
    intro k
    have h2 : ∀ j, updFn f n.id ⊤ j = ⊤ := by
      intro j
      by_cases hj : j = n.id
      · subst hj; exact updFn_self ..
      · rw [updFn_ne _ _ _ hj]; exact hf j
    exact ih (updFn f n.id ⊤) h2 k

theorem initDistances_eq (nodes : List Node) (startId k : ℕ) :
    initDistances nodes startId k = if k = startId then 0 else ⊤ := by
  unfold initDistances
  by_cases hk : k = startId
  · subst hk; simp [updFn_self]
  · rw [updFn_ne _ _ _ hk, foldl_top_eq _ _ (fun _ => rfl), if_neg hk]

theorem initDistances_start (nodes : List Node) (startId : ℕ) :
    initDistances nodes startId startId = 0 := by
  simp [initDistances_eq]

theorem initDistances_eq_zero_iff (nodes : List Node) (startId k : ℕ) :
    initDistances nodes startId k = 0 ↔ k = startId := by
  rw [initDistances_eq]
  by_cases hk : k = startId <;> simp [hk]

theorem initPrevious_eq (nodes : List Node) (k : ℕ) :
    initPrevious nodes k = if k ∈ nodes.map Node.id then some none else none := by
  unfold initPrevious
  suffices h : ∀ f : ℕ → Option (Option ℕ),
      nodes.foldl (fun g n => updFn g n.id (some none)) f k =
        if k ∈ nodes.map Node.id then some none else f k by
    exact h _
  induction nodes with
  | nil => intro f; simp
  | cons n ns ih =>
    intro f
    rw [List.foldl_cons, ih]
    by_cases hmem : k ∈ ns.map Node.id
    · simp [hmem]
    · by_cases hk : k = n.id
      · subst hk; simp [hmem, updFn_self]
      · rw [updFn_ne _ _ _ hk]
        simp [hmem, hk]

/-! Facts about the stable re-sort of the pending list. -/

theorem insertPend_perm (d : ℕ → WithTop ℚ) (a : Node) (l : List Node) :
    List.Perm (insertPend d a l) (a :: l) := by
  induction l with
  | nil => rfl
  | cons b l ih =>
    unfold insertPend
    by_cases h : d a.id ≤ d b.id
    · rw [if_pos h]
    · rw [if_neg h]
      exact (ih.cons b).trans (List.Perm.swap a b l)

theorem sortPend_perm (d : ℕ → WithTop ℚ) (l : List Node) :
    List.Perm (sortPend d l) l := by
  induction l with
  | nil => rfl
  | cons a l ih => exact (insertPend_perm d a (sortPend d l)).trans (ih.cons a)

theorem sortPend_length (d : ℕ → WithTop ℚ) (l : List Node) :
    (sortPend d l).length = l.length :=
  (sortPend_perm d l).length_eq

theorem mem_sortPend (d : ℕ → WithTop ℚ) {l : List Node} {a : Node} :
    a ∈ sortPend d l ↔ a ∈ l :=
  (sortPend_perm d l).mem_iff

theorem insertPend_pairwise (d : ℕ → WithTop ℚ) (a : Node) {l : List Node}
    (hl : l.Pairwise fun x y => d x.id ≤ d y.id) :
    (insertPend d a l).Pairwise fun x y => d x.id ≤ d y.id := by
  induction l with
  | nil => simp [insertPend]
  | cons b l ih =>
    rw [List.pairwise_cons] at hl
    unfold insertPend
    by_cases h : d a.id ≤ d b.id
    · rw [if_pos h, List.pairwise_cons]
      refine ⟨?_, List.pairwise_cons.mpr hl⟩
      intro c hc
      rcases List.mem_cons.mp hc with rfl | hc
      · exact h
      · exact le_trans h (hl.1 c hc)
    · rw [if_neg h, List.pairwise_cons]
      refine ⟨?_, ih hl.2⟩
      intro c hc
      rcases List.mem_cons.mp ((insertPend_perm d a l).mem_iff.mp hc) with rfl | hc'
      · exact le_of_not_le h
      · exact hl.1 c hc'

theorem sortPend_pairwise (d : ℕ → WithTop ℚ) (l : List Node) :
    (sortPend d l).Pairwise fun x y => d x.id ≤ d y.id := by
  induction l with
  | nil => simp [sortPend]
  | cons a l ih => exact insertPend_pairwise d a ih

/-- Soundness of the selection step: the shifted front of the re-sorted pending
list is a pending node of minimum tentative distance. -/
theorem sortPend_head_min (d : ℕ → WithTop ℚ) {l : List Node} {current : Node}
    {rest : List Node} (h : sortPend d l = current :: rest) :
    current ∈ l ∧ ∀ p ∈ l, d current.id ≤ d p.id := by
  have hperm := sortPend_perm d l
  rw [h] at hperm
  constructor
  · exact hperm.mem_iff.mp (List.mem_cons_self _ _)
  · intro p hp
    have hp' : p ∈ current :: rest := hperm.mem_iff.mpr hp
    rcases List.mem_cons.mp hp' with rfl | hp'
    · exact le_refl _
    · have hpw := sortPend_pairwise d l
      rw [h, List.pairwise_cons] at hpw
      exact hpw.1 p hp'

/-! Case analysis of one edge examination. -/

theorem relaxEdge_cases (current : Node) (st : DijkstraState) (e : Edge) :
    (relaxEdge current st e = st ∧
      ¬((neighborOf current.id e).id ∉ st.visited ∧
        st.distances current.id + (e.weight : WithTop ℚ) <
          st.distances (neighborOf current.id e).id)) ∨
    ((neighborOf current.id e).id ∉ st.visited ∧
      st.distances current.id + (e.weight : WithTop ℚ) <
        st.distances (neighborOf current.id e).id ∧
      relaxEdge current st e =
        { st with
          distances := updFn st.distances (neighborOf current.id e).id
            (st.distances current.id + (e.weight : WithTop ℚ))
          previous := updFn st.previous (neighborOf current.id e).id
            (some (some current.id))
          exploredEdges := st.exploredEdges ++ [e] }) := by
  unfold relaxEdge
  by_cases h1 : (neighborOf current.id e).id ∈ st.visited
  · left
    constructor
    · simp [h1]
    · intro h
      exact h.1 h1
  · by_cases h2 : st.distances current.id + (e.weight : WithTop ℚ) <
        st.distances (neighborOf current.id e).id
    · right
      exact ⟨h1, h2, by simp [h1, h2]⟩
    · left
      constructor
      · simp [h1, h2]
      · intro h
        exact h2 h.2

theorem relaxEdge_visited (current : Node) (st : DijkstraState) (e : Edge) :
    (relaxEdge current st e).visited = st.visited := by
  rcases relaxEdge_cases current st e with ⟨h, _⟩ | ⟨_, _, h⟩ <;> rw [h]

theorem relaxEdge_pending (current : Node) (st : DijkstraState) (e : Edge) :
    (relaxEdge current st e).pending = st.pending := by
  rcases relaxEdge_cases current st e with ⟨h, _⟩ | ⟨_, _, h⟩ <;> rw [h]

theorem relaxEdge_pops (current : Node) (st : DijkstraState) (e : Edge) :
    (relaxEdge current st e).pops = st.pops := by
  rcases relaxEdge_cases current st e with ⟨h, _⟩ | ⟨_, _, h⟩ <;> rw [h]

theorem relaxEdge_distances_le (current : Node) (st : DijkstraState) (e : Edge) (k : ℕ) :
    (relaxEdge current st e).distances k ≤ st.distances k := by
  rcases relaxEdge_cases current st e with ⟨h, _⟩ | ⟨hnv, hlt, h⟩
  · rw [h]
  · rw [h]
    by_cases hk : k = (neighborOf current.id e).id
    · subst hk
      simp only [updFn_self]
      exact le_of_lt hlt
    · simp only
      rw [updFn_ne _ _ _ hk]

theorem relaxEdge_distances_visited (current : Node) (st : DijkstraState) (e : Edge)
    {k : ℕ} (hk : k ∈ st.visited) :
    (relaxEdge current st e).distances k = st.distances k := by
  rcases relaxEdge_cases current st e with ⟨h, _⟩ | ⟨hnv, hlt, h⟩
  · rw [h]
  · rw [h]
    simp only
    rw [updFn_ne]
    intro hkk
    rw [hkk] at hk
    exact hnv hk

/-- Claim C5: every edge appended to the exploration trace strictly decreased
the tentative distance of its not-yet-visited endpoint at the moment it was
appended, and an examined edge that yields no strict improvement leaves the
trace (indeed the whole state) unchanged.  Every append to exploredEdges in
the algorithm happens through relaxEdge (see relaxAll and dijkstraLoop), so
this examination-level statement covers every trace entry of every run. -/
theorem trace_monotone_improvement (current : Node) (st : DijkstraState) (e : Edge) :
    ((relaxEdge current st e).exploredEdges = st.exploredEdges ++ [e] ∧
      (neighborOf current.id e).id ∉ st.visited ∧
      (relaxEdge current st e).distances (neighborOf current.id e).id <
        st.distances (neighborOf current.id e).id) ∨
    (relaxEdge current st e = st ∧
      ¬((neighborOf current.id e).id ∉ st.visited ∧
        st.distances current.id + (e.weight : WithTop ℚ) <
          st.distances (neighborOf current.id e).id)) := by
  rcases relaxEdge_cases current st e with ⟨h, hno⟩ | ⟨hnv, hlt, h⟩
  · right
    exact ⟨h, hno⟩
  · left
    refine ⟨by rw [h], hnv, ?_⟩
    rw [h]
    simp only [updFn_self]
    exact hlt

/-- Claim C7: dijkstra is deterministic.  Two invocations on element-for-element
identical node and edge collections with the same endpoints return identical
paths and exploration traces, and identical onStep call sequences.  The
embedding is a pure function of its arguments: as established by the modelling
of Array.prototype.sort (header comment), the source has no other source of
ordering or randomness inside dijkstra. -/
theorem dijkstra_deterministic (nodes1 nodes2 : List Node) (edges1 edges2 : List Edge)
    (startId endId : ℕ) (hn : nodes1 = nodes2) (he : edges1 = edges2) :
    dijkstra nodes1 edges1 startId endId = dijkstra nodes2 edges2 startId endId ∧
      (dijkstraRun nodes1 edges1 startId endId).pops =
        (dijkstraRun nodes2 edges2 startId endId).pops := by
  subst hn
  subst he
  exact ⟨rfl, rfl⟩

/-- Witness for C7 at a concrete graph. -/
theorem dijkstra_deterministic_witness :
    dijkstra [(⟨0, 0, 0⟩ : Node), ⟨1, 3, 4⟩] [⟨⟨0, 0, 0⟩, ⟨1, 3, 4⟩, 25⟩] 0 1 =
        dijkstra [(⟨0, 0, 0⟩ : Node), ⟨1, 3, 4⟩] [⟨⟨0, 0, 0⟩, ⟨1, 3, 4⟩, 25⟩] 0 1 ∧
      (dijkstraRun [(⟨0, 0, 0⟩ : Node), ⟨1, 3, 4⟩] [⟨⟨0, 0, 0⟩, ⟨1, 3, 4⟩, 25⟩] 0 1).pops =
        (dijkstraRun [(⟨0, 0, 0⟩ : Node), ⟨1, 3, 4⟩] [⟨⟨0, 0, 0⟩, ⟨1, 3, 4⟩, 25⟩] 0 1).pops :=
  dijkstra_deterministic _ _ _ _ 0 1 rfl rfl

/-! Path reconstruction basics. -/

theorem walkPrev_undef (previous : ℕ → Option (Option ℕ)) :
    ∀ fuel acc, walkPrev previous fuel none acc = none := by
  intro fuel
  induction fuel with
  | zero => intro acc; rfl
  | succ n ih => intro acc; exact ih acc

theorem walkPrev_absent (previous : ℕ → Option (Option ℕ)) (k : ℕ)
    (hk : previous k = none) :
    ∀ fuel acc, walkPrev previous fuel (some (some k)) acc = none := by
  intro fuel acc
  cases fuel with
  | zero => rfl
  | succ n =>
    have hstep : walkPrev previous (n + 1) (some (some k)) acc =
        walkPrev previous n (previous k) (k :: acc) := rfl
    rw [hstep, hk]
    exact walkPrev_undef previous n _

/-- Claim C1 (failing input): on the two-node edgeless graph with startId 0 and
endId 1, the end is unreachable, yet dijkstra returns the non-empty path
consisting of the unreachable target alone, together with the empty trace.
The spec requires an Unreachable result with an empty path here. -/
theorem unreachable_returns_target_path :
    dijkstra [(⟨0, 0, 0⟩ : Node), ⟨1, 9, 9⟩] [] 0 1 =
      { path := some [1], exploredEdges := [] } := by
  decide

/-- Claim C2 (failing input): on the one-node graph with node id 0 and no
edges, calling dijkstra with the absent endId 1 signals nothing; its
path-reconstruction while loop never terminates: previous at the absent key 1
is undefined, undefined is not strictly equal to null, and following previous
from undefined stays undefined forever.  In the embedding the walk returns
none (fuel exhausted) for every fuel, and so does the path field. -/
theorem absent_end_never_terminates :
    (∀ fuel acc,
        walkPrev (dijkstraRun [(⟨0, 0, 0⟩ : Node)] [] 0 1).previous fuel
          (some (some 1)) acc = none) ∧
      (dijkstra [(⟨0, 0, 0⟩ : Node)] [] 0 1).path = none := by
  have hprev : (dijkstraRun [(⟨0, 0, 0⟩ : Node)] [] 0 1).previous 1 = none := by decide
  refine ⟨fun fuel acc => walkPrev_absent _ 1 hprev fuel acc, ?_⟩
  exact walkPrev_absent _ 1 hprev 2 []

/-! One-iteration unfolding of the main loop. -/

theorem dijkstraLoop_succ (edges : List Edge) (endId fuel : ℕ) (st : DijkstraState) :
    dijkstraLoop edges endId (fuel + 1) st =
      match sortPend st.distances st.pending with
      | [] => st
      | current :: rest =>
        if st.distances current.id = ⊤ then { st with pending := rest }
        else if current.id = endId then { st with pending := rest }
        else
          dijkstraLoop edges endId fuel
            (relaxAll edges current
              { st with
                pending := rest
                visited := current.id :: st.visited
                pops := st.pops ++ [current] }) := rfl

theorem dijkstraLoop_nil_sort (edges : List Edge) (endId fuel : ℕ) (st : DijkstraState)
    (hsort : sortPend st.distances st.pending = []) :
    dijkstraLoop edges endId (fuel + 1) st = st := by
  rw [dijkstraLoop_succ, hsort]

theorem dijkstraLoop_cons (edges : List Edge) (endId fuel : ℕ) (st : DijkstraState)
    {current : Node} {rest : List Node}
    (hsort : sortPend st.distances st.pending = current :: rest) :
    dijkstraLoop edges endId (fuel + 1) st =
      if st.distances current.id = ⊤ then { st with pending := rest }
      else if current.id = endId then { st with pending := rest }
      else
        dijkstraLoop edges endId fuel
          (relaxAll edges current
            { st with
              pending := rest
              visited := current.id :: st.visited
              pops := st.pops ++ [current] }) := by
  rw [dijkstraLoop_succ, hsort]

/-- Shared analysis of the run with equal endpoints: the first selected node
is the unique node of tentative distance 0, whose id is s, and the endId early
exit fires before anything is visited or relaxed. -/
theorem dijkstra_self_aux (nodes : List Node) (edges : List Edge) (s : ℕ)
    (hs : s ∈ nodes.map Node.id) :
    dijkstra nodes edges s s = { path := some [s], exploredEdges := [] } ∧
      (dijkstraRun nodes edges s s).pops = [] := by
  obtain ⟨ns, hns, hnsid⟩ := List.mem_map.mp hs
  have hne : nodes ≠ [] := by
    intro h
    rw [h] at hns
    exact (List.not_mem_nil ns) hns
  obtain ⟨m, hm⟩ : ∃ m, nodes.length = m + 1 := by
    cases hlen : nodes.length with
    | zero => exact absurd (List.length_eq_zero.mp hlen) hne
    | succ k => exact ⟨k, rfl⟩
  cases hsort : sortPend (initDistances nodes s) nodes with
  | nil =>
    have := sortPend_length (initDistances nodes s) nodes
    rw [hsort, hm] at this
    exact absurd this.symm (Nat.succ_ne_zero m)
  | cons current rest =>
    have hmin := sortPend_head_min (initDistances nodes s) hsort
    have hle : initDistances nodes s current.id ≤ 0 := by
      have h2 := hmin.2 ns hns
      rwa [hnsid, initDistances_start] at h2
    have hcid : current.id = s := by
      by_contra hne2
      rw [initDistances_eq, if_neg hne2] at hle
      exact absurd hle (by simp)
    have hrun : dijkstraRun nodes edges s s = { initState nodes s with pending := rest } := by
      unfold dijkstraRun
      rw [hm, dijkstraLoop_cons edges s m (initState nodes s) hsort]
      have hd0 : (initState nodes s).distances current.id = 0 := by
        show initDistances nodes s current.id = 0
        rw [hcid, initDistances_start]
      rw [hd0]
      rw [if_neg (by simp : ¬((0 : WithTop ℚ) = ⊤)), if_pos hcid]
    refine ⟨?_, by rw [hrun]; rfl⟩
    have hw : walkPrev (initPrevious nodes) (nodes.length + 1) (some (some s)) [] =
        some [s] := by
      rw [hm]
      have hstep : walkPrev (initPrevious nodes) (m + 1 + 1) (some (some s)) [] =
          walkPrev (initPrevious nodes) (m + 1) (initPrevious nodes s) [s] := rfl
      rw [hstep, initPrevious_eq, if_pos hs]
      rfl
    have hd : dijkstra nodes edges s s =
        { path := walkPrev (dijkstraRun nodes edges s s).previous (nodes.length + 1)
            (some (some s)) [],
          exploredEdges := (dijkstraRun nodes edges s s).exploredEdges } := rfl
    rw [hd, hrun]
    show ({ path := walkPrev (initPrevious nodes) (nodes.length + 1) (some (some s)) [],
            exploredEdges := [] } : DijkstraResult) =
      { path := some [s], exploredEdges := [] }
    rw [hw]

/-- Claim C6: for any node id s present in the graph, dijkstra g s s returns
the single-node path consisting of s and an empty exploration trace (the
onStep callback is never invoked). -/
theorem dijkstra_self (nodes : List Node) (edges : List Edge) (s : ℕ)
    (hs : s ∈ nodes.map Node.id) :
    dijkstra nodes edges s s = { path := some [s], exploredEdges := [] } ∧
      (dijkstraRun nodes edges s s).pops = [] :=
  dijkstra_self_aux nodes edges s hs

/-- Witness for C6 on a concrete one-node graph. -/
theorem dijkstra_self_witness :
    dijkstra [(⟨0, 0, 0⟩ : Node)] [] 0 0 = { path := some [0], exploredEdges := [] } ∧
      (dijkstraRun [(⟨0, 0, 0⟩ : Node)] [] 0 0).pops = [] :=
  dijkstra_self [⟨0, 0, 0⟩] [] 0 (by decide)

/-! Concrete data exhibiting the tie-break behaviour of the selection step. -/

def cxNode0 : Node := ⟨0, 0, 0⟩

def cxNode1 : Node := ⟨1, 0, 0⟩

def cxNode2 : Node := ⟨2, 0, 0⟩

def cxNode3 : Node := ⟨3, 0, 0⟩

def cxNodes : List Node := [cxNode0, cxNode1, cxNode2, cxNode3]

def cxEdges : List Edge :=
  [⟨cxNode0, cxNode2, 1⟩, ⟨cxNode0, cxNode3, 5⟩, ⟨cxNode0, cxNode1, 6⟩, ⟨cxNode2, cxNode1, 4⟩]

/-- Claim C4 counterexample: selection ties are not broken by ascending node
id.  Running dijkstra on cxNodes / cxEdges from 0 to 1: after two iterations
the pending list is the nodes with ids 3 and 1, in that order, both at
tentative distance 5 (the minimum); the third iteration selects and visits the
node with id 3, although the tied node with the smaller id 1 is pending, as
the onStep sequence of the full run records.  The stable re-sort keeps node 3,
sorted earlier when its distance was smaller, in front of the later-improved
node 1. -/
theorem tie_break_not_by_id :
    (dijkstraLoop cxEdges 1 2 (initState cxNodes 0)).pending = [cxNode3, cxNode1] ∧
      (dijkstraLoop cxEdges 1 2 (initState cxNodes 0)).distances 3 = ((5 : ℚ) : WithTop ℚ) ∧
      (dijkstraLoop cxEdges 1 2 (initState cxNodes 0)).distances 1 = ((5 : ℚ) : WithTop ℚ) ∧
      (sortPend (dijkstraLoop cxEdges 1 2 (initState cxNodes 0)).distances
          (dijkstraLoop cxEdges 1 2 (initState cxNodes 0)).pending).head? = some cxNode3 ∧
      cxNode1.id < cxNode3.id ∧
      (dijkstraRun cxNodes cxEdges 0 1).pops.map Node.id = [0, 2, 3] := by
  refine ⟨?_, ?_, ?_, ?_, by norm_num [cxNode1, cxNode3], ?_⟩ <;>
    norm_num [dijkstraRun, dijkstraLoop, initState, initDistances, initPrevious, sortPend,
      insertPend, relaxAll, relaxEdge, neighborOf, incident, updFn, cxNodes, cxEdges,
      cxNode0, cxNode1, cxNode2, cxNode3,
      ← WithTop.coe_add, WithTop.coe_lt_top, WithTop.coe_lt_coe, WithTop.coe_le_coe, le_top,
      top_le_iff, WithTop.top_ne_coe, WithTop.coe_ne_top, List.mem_cons, List.mem_singleton,
      -WithTop.coe_ofNat, -WithTop.coe_zero, -WithTop.coe_one]

/-- Claim C4 (amended): at every iteration of the main loop, the node removed
from pending and visited, namely the front of the re-sorted pending list, is a
pending node whose tentative distance is minimal among all pending nodes.
When several pending nodes tie at the minimum, however, the stable re-sort
selects the one earliest in the current pending order, which need not be the
one with the smallest id (see the counterexample). -/
theorem selection_is_minimal (st : DijkstraState) {current : Node} {rest : List Node}
    (hsort : sortPend st.distances st.pending = current :: rest) :
    current ∈ st.pending ∧
      ∀ p ∈ st.pending, st.distances current.id ≤ st.distances p.id :=
  sortPend_head_min st.distances hsort

/-- Witness for the amended C4 on a one-node state. -/
theorem selection_is_minimal_witness :
    cxNode0 ∈ (initState [cxNode0] 0).pending ∧
      ∀ p ∈ (initState [cxNode0] 0).pending,
        (initState [cxNode0] 0).distances cxNode0.id ≤ (initState [cxNode0] 0).distances p.id :=
  selection_is_minimal (initState [cxNode0] 0) rfl

/-! The edge generator. -/

theorem calculateDistanceSq_comm (a b : Node) :
    calculateDistanceSq a b = calculateDistanceSq b a := by
  unfold calculateDistanceSq
  ring

theorem calculateDistanceSq_nonneg (a b : Node) : 0 ≤ calculateDistanceSq a b := by
  unfold calculateDistanceSq
  positivity

theorem withinRange_comm (a b : Node) (maxDistance : ℚ) :
    withinRange a b maxDistance ↔ withinRange b a maxDistance := by
  unfold withinRange
  rw [calculateDistanceSq_comm]

theorem mem_generateEdges (nodes : List Node) (maxDistance : ℚ) (e : Edge) :
    e ∈ generateEdges nodes maxDistance ↔
      ∃ a ∈ nodes, ∃ b ∈ nodes, a.id ≠ b.id ∧ withinRange a b maxDistance ∧
        e = { source := a, target := b, weight := calculateDistanceSq a b } := by
  unfold generateEdges
  rw [List.mem_flatMap]
  constructor
  · rintro ⟨a, ha, hmem⟩
    rw [List.mem_filterMap] at hmem
    obtain ⟨b, hb, hsome⟩ := hmem
    by_cases hc : a.id ≠ b.id ∧ withinRange a b maxDistance
    · rw [if_pos hc] at hsome
      exact ⟨a, ha, b, hb, hc.1, hc.2, (Option.some.injEq _ _ ▸ hsome).symm⟩
    · rw [if_neg hc] at hsome
      exact absurd hsome (Option.noConfusion)
  · rintro ⟨a, ha, b, hb, hid, hwr, rfl⟩
    refine ⟨a, ha, ?_⟩
    rw [List.mem_filterMap]
    exact ⟨b, hb, by rw [if_pos ⟨hid, hwr⟩]⟩

/-- Claim C8: generateEdges emits an edge for an ordered pair exactly when the
two nodes are distinct (equivalently, under the builder's distinct ids, their
ids differ) and their Euclidean distance is strictly below maxDistance; the
stored edge set is symmetric, contains no self-edges, and is empty whenever
maxDistance is non-positive. -/
theorem generateEdges_spec (nodes : List Node) (maxDistance : ℚ)
    (hnd : (nodes.map Node.id).Nodup) :
    (∀ e : Edge, e ∈ generateEdges nodes maxDistance ↔
      ∃ a ∈ nodes, ∃ b ∈ nodes, a ≠ b ∧ withinRange a b maxDistance ∧
        e = { source := a, target := b, weight := calculateDistanceSq a b }) ∧
    (∀ a b : Node, ∀ w : ℚ,
      ({ source := a, target := b, weight := w } : Edge) ∈ generateEdges nodes maxDistance ↔
      ({ source := b, target := a, weight := w } : Edge) ∈ generateEdges nodes maxDistance) ∧
    (∀ e ∈ generateEdges nodes maxDistance, e.source.id ≠ e.target.id) ∧
    (maxDistance ≤ 0 → generateEdges nodes maxDistance = []) := by
  have hinj : ∀ x ∈ nodes, ∀ y ∈ nodes, x.id = y.id → x = y :=
    List.inj_on_of_nodup_map hnd
  refine ⟨?_, ?_, ?_, ?_⟩
  · intro e
    rw [mem_generateEdges]
    constructor
    · rintro ⟨a, ha, b, hb, hid, hwr, rfl⟩
      exact ⟨a, ha, b, hb, fun hab => hid (congrArg Node.id hab), hwr, rfl⟩
    · rintro ⟨a, ha, b, hb, hab, hwr, rfl⟩
      exact ⟨a, ha, b, hb, fun hid => hab (hinj a ha b hb hid), hwr, rfl⟩
  · intro a b w
    rw [mem_generateEdges, mem_generateEdges]
    constructor
    · rintro ⟨a', ha', b', hb', hid, hwr, he⟩
      rw [Edge.mk.injEq] at he
      obtain ⟨rfl, rfl, rfl⟩ := he
      exact ⟨b, hb', a, ha', Ne.symm hid, (withinRange_comm _ _ _).mp hwr,
        by rw [Edge.mk.injEq]; exact ⟨rfl, rfl, calculateDistanceSq_comm _ _⟩⟩
    · rintro ⟨b', hb', a', ha', hid, hwr, he⟩
      rw [Edge.mk.injEq] at he
      obtain ⟨rfl, rfl, rfl⟩ := he
      exact ⟨a, ha', b, hb', Ne.symm hid, (withinRange_comm _ _ _).mp hwr,
        by rw [Edge.mk.injEq]; exact ⟨rfl, rfl, calculateDistanceSq_comm _ _⟩⟩
  · intro e he
    rw [mem_generateEdges] at he
    obtain ⟨a, _, b, _, hid, _, rfl⟩ := he
    exact hid
  · intro hmd
    rw [List.eq_nil_iff_forall_not_mem]
    intro e he
    rw [mem_generateEdges] at he
    obtain ⟨a, _, b, _, _, hwr, _⟩ := he
    exact absurd hwr.1 (not_lt.mpr hmd)

/-- Witness for C8 on a concrete three-node configuration. -/
theorem generateEdges_spec_witness :
    (∀ e : Edge, e ∈ generateEdges [(⟨0, 0, 0⟩ : Node), ⟨1, 3, 4⟩] 6 ↔
      ∃ a ∈ [(⟨0, 0, 0⟩ : Node), ⟨1, 3, 4⟩], ∃ b ∈ [(⟨0, 0, 0⟩ : Node), ⟨1, 3, 4⟩],
        a ≠ b ∧ withinRange a b 6 ∧
        e = { source := a, target := b, weight := calculateDistanceSq a b }) ∧
    (∀ a b : Node, ∀ w : ℚ,
      ({ source := a, target := b, weight := w } : Edge) ∈
          generateEdges [(⟨0, 0, 0⟩ : Node), ⟨1, 3, 4⟩] 6 ↔
      ({ source := b, target := a, weight := w } : Edge) ∈
          generateEdges [(⟨0, 0, 0⟩ : Node), ⟨1, 3, 4⟩] 6) ∧
    (∀ e ∈ generateEdges [(⟨0, 0, 0⟩ : Node), ⟨1, 3, 4⟩] 6, e.source.id ≠ e.target.id) ∧
    ((6 : ℚ) ≤ 0 → generateEdges [(⟨0, 0, 0⟩ : Node), ⟨1, 3, 4⟩] 6 = []) :=
  generateEdges_spec [⟨0, 0, 0⟩, ⟨1, 3, 4⟩] 6 (by decide)

/-! First-occurrence index in a list of ids, used to order predecessor chains
by pop time. -/

def idxIn : List ℕ → ℕ → ℕ
  | [], _ => 0
  | x :: rest, k => if x = k then 0 else idxIn rest k + 1

theorem idxIn_lt_length {xs : List ℕ} {k : ℕ} (hk : k ∈ xs) : idxIn xs k < xs.length := by
  induction xs with
  | nil => exact absurd hk (List.not_mem_nil k)
  | cons x rest ih =>
    unfold idxIn
    by_cases hx : x = k
    · rw [if_pos hx]
      exact Nat.succ_pos _
    · rw [if_neg hx]
      have : k ∈ rest := by
        rcases List.mem_cons.mp hk with h | h
        · exact absurd h.symm hx
        · exact h
      exact Nat.succ_lt_succ (ih this)

theorem idxIn_append_of_mem {xs : List ℕ} {k : ℕ} (hk : k ∈ xs) (ys : List ℕ) :
    idxIn (xs ++ ys) k = idxIn xs k := by
  induction xs with
  | nil => exact absurd hk (List.not_mem_nil k)
  | cons x rest ih =>
    rw [List.cons_append]
    unfold idxIn
    by_cases hx : x = k
    · rw [if_pos hx, if_pos hx]
    · rw [if_neg hx, if_neg hx]
      have : k ∈ rest := by
        rcases List.mem_cons.mp hk with h | h
        · exact absurd h.symm hx
        · exact h
      rw [ih this]

theorem idxIn_append_self {xs : List ℕ} {k : ℕ} (hk : k ∉ xs) :
    idxIn (xs ++ [k]) k = xs.length := by
  induction xs with
  | nil => simp [idxIn]
  | cons x rest ih =>
    rw [List.cons_append]
    unfold idxIn
    have hx : x ≠ k := fun h => hk (h ▸ List.mem_cons_self x rest)
    rw [if_neg hx, ih (fun h => hk (List.mem_cons_of_mem x h))]
    rfl

/-! Walks in the graph. -/

theorem edgeConnects_of_incident {u : ℕ} {e : Edge} (hinc : incident u e) :
    EdgeConnects e u (neighborOf u e).id := by
  unfold EdgeConnects neighborOf
  by_cases hsrc : e.source.id = u
  · rw [if_pos hsrc]
    exact Or.inl ⟨hsrc, rfl⟩
  · rw [if_neg hsrc]
    rcases hinc with h | h
    · exact absurd h hsrc
    · exact Or.inr ⟨rfl, h⟩

theorem isPath_congr_weight {edges : List Edge} {p : List ℕ} {w w' : ℚ}
    (h : IsPath edges p w) (hw : w = w') : IsPath edges p w' := hw ▸ h

theorem isPath_nonneg {edges : List Edge} (hw : ∀ e ∈ edges, 0 ≤ e.weight)
    {p : List ℕ} {w : ℚ} (h : IsPath edges p w) : 0 ≤ w := by
  induction h with
  | single a => exact le_refl 0
  | cons a e he hab h ih => exact add_nonneg (hw e he) ih

theorem isPath_append_one {edges : List Edge} {p : List ℕ} {w : ℚ} {b c : ℕ} {e : Edge}
    (h : IsPath edges p w) (hlast : p.getLast? = some b) (he : e ∈ edges)
    (hbc : EdgeConnects e b c) : IsPath edges (p ++ [c]) (w + e.weight) := by
  induction h with
  | single a =>
    have hab : a = b := by
      simp only [List.getLast?_singleton, Option.some.injEq] at hlast
      exact hlast
    subst hab
    exact isPath_congr_weight (IsPath.cons a e he hbc (IsPath.single c)) (by ring)
  | cons a e0 he0 hab h ih =>
    rename_i b0 l w0
    have hlast' : (b0 :: l).getLast? = some b := by
      rwa [List.getLast?_cons_cons] at hlast
    exact isPath_congr_weight (IsPath.cons a e0 he0 hab (ih hlast')) (by ring)

theorem isPath_head_mem {edges : List Edge} {p : List ℕ} {w : ℚ} (h : IsPath edges p w)
    {a : ℕ} (ha : p.head? = some a) : a ∈ p := by
  cases h with
  | single c => cases ha; exact List.mem_singleton.mpr rfl
  | cons c e he hab htail =>
    cases ha
    exact List.mem_cons_self _ _

theorem isPath_mem_ids {nodes : List Node} {edges : List Edge}
    (hsrc : ∀ e ∈ edges, e.source ∈ nodes) (htgt : ∀ e ∈ edges, e.target ∈ nodes)
    {p : List ℕ} {w : ℚ} (h : IsPath edges p w) {a : ℕ} (ha : p.head? = some a)
    (hamem : a ∈ nodes.map Node.id) : ∀ y ∈ p, y ∈ nodes.map Node.id := by
  induction h generalizing a with
  | single c =>
    intro y hy
    cases ha
    rcases List.mem_singleton.mp hy with rfl
    exact hamem
  | cons c e he hab htail ih =>
    rename_i b l w0
    cases ha
    intro y hy
    have hbmem : b ∈ nodes.map Node.id := by
      rcases hab with ⟨h1, h2⟩ | ⟨h1, h2⟩
      · exact h2 ▸ List.mem_map_of_mem Node.id (htgt e he)
      · exact h1 ▸ List.mem_map_of_mem Node.id (hsrc e he)
    rcases List.mem_cons.mp hy with rfl | hy'
    · exact hamem
    · exact ih rfl hbmem y hy'

/-- The cut argument: in a state whose visited nodes have all their incident
edges relaxed, every walk starting at a visited node a either certifies its
endpoint's tentative distance, or passes through an unvisited node whose
tentative distance is at most the walk's weight budget. -/
theorem walk_lb {edges : List Edge} (st : DijkstraState)
    (hw : ∀ e ∈ edges, 0 ≤ e.weight)
    (hrelaxed : ∀ u ∈ st.visited, ∀ e ∈ edges, incident u e →
      st.distances (neighborOf u e).id ≤ st.distances u + (e.weight : WithTop ℚ))
    {p : List ℕ} {wq : ℚ} (h : IsPath edges p wq) :
    ∀ a z : ℕ, p.head? = some a → p.getLast? = some z → a ∈ st.visited →
      st.distances z ≤ st.distances a + (wq : WithTop ℚ) ∨
        ∃ y ∈ p, y ∉ st.visited ∧ st.distances y ≤ st.distances a + (wq : WithTop ℚ) := by
  induction h with
  | single c =>
    intro a z ha hz hav
    cases ha
    simp only [List.getLast?_singleton, Option.some.injEq] at hz
    subst hz
    left
    simp
  | cons c e he hab htail ih =>
    rename_i b l w0
    intro a z ha hz hav
    cases ha
    have hzlast : (b :: l).getLast? = some z := by
      rwa [List.getLast?_cons_cons] at hz
    have hconn : incident c e ∧ (neighborOf c e).id = b := by
      rcases hab with ⟨h1, h2⟩ | ⟨h1, h2⟩
      · exact ⟨Or.inl h1, by unfold neighborOf; rw [if_pos h1]; exact h2⟩
      · refine ⟨Or.inr h2, ?_⟩
        unfold neighborOf
        by_cases hsa : e.source.id = c
        · rw [if_pos hsa]
          have hsb : e.source.id = b := h1
          rw [← hsb, hsa, h2]
        · rw [if_neg hsa]
          exact h1
    have hb_le : st.distances b ≤ st.distances c + (e.weight : WithTop ℚ) := by
      have h3 := hrelaxed c hav e he hconn.1
      rwa [hconn.2] at h3
    by_cases hbv : b ∈ st.visited
    · rcases ih b z rfl hzlast hbv with hle | ⟨y, hy, hyv, hyle⟩
      · left
        calc st.distances z ≤ st.distances b + (w0 : WithTop ℚ) := hle
          _ ≤ (st.distances c + (e.weight : WithTop ℚ)) + (w0 : WithTop ℚ) :=
            add_le_add_right hb_le _
          _ = st.distances c + ((e.weight + w0 : ℚ) : WithTop ℚ) := by
            rw [WithTop.coe_add, add_assoc]
      · right
        refine ⟨y, List.mem_cons_of_mem _ hy, hyv, ?_⟩
        calc st.distances y ≤ st.distances b + (w0 : WithTop ℚ) := hyle
          _ ≤ (st.distances c + (e.weight : WithTop ℚ)) + (w0 : WithTop ℚ) :=
            add_le_add_right hb_le _
          _ = st.distances c + ((e.weight + w0 : ℚ) : WithTop ℚ) := by
            rw [WithTop.coe_add, add_assoc]
    · right
      refine ⟨b, List.mem_cons_of_mem _ (List.mem_cons_self _ _), hbv, ?_⟩
      have h0 : (0 : WithTop ℚ) ≤ (w0 : WithTop ℚ) := by
        exact_mod_cast isPath_nonneg hw htail
      calc st.distances b ≤ st.distances c + (e.weight : WithTop ℚ) := hb_le
        _ ≤ (st.distances c + (e.weight : WithTop ℚ)) + (w0 : WithTop ℚ) :=
          le_add_of_nonneg_right h0
        _ = st.distances c + ((e.weight + w0 : ℚ) : WithTop ℚ) := by
          rw [WithTop.coe_add, add_assoc]

/-! The main loop invariant. -/

/-- Invariant of the main loop, relating the state to the input graph.  pops
is the onStep sequence; visited is its id set; pending holds the rest of the
nodes.  Visited nodes are finalized: finite, relaxed along all their incident
edges, below every pending distance, and popped in nondecreasing distance
order.  The predecessor map records, for each improved node, the visited
neighbor and connecting edge that achieved its current tentative distance, and
predecessor chains strictly decrease pop time. -/
structure LoopInv (nodes : List Node) (edges : List Edge) (startId endId : ℕ)
    (st : DijkstraState) : Prop where
  perm : List.Perm (st.pops ++ st.pending) nodes
  visEq : st.visited = (st.pops.map Node.id).reverse
  nonneg : ∀ k, 0 ≤ st.distances k
  dStart : st.distances startId = 0
  popsNeEnd : ∀ v ∈ st.pops, v.id ≠ endId
  finVis : ∀ u ∈ st.visited, st.distances u ≠ ⊤
  relaxed : ∀ u ∈ st.visited, ∀ e ∈ edges, incident u e →
    st.distances (neighborOf u e).id ≤ st.distances u + (e.weight : WithTop ℚ)
  frontier : ∀ u ∈ st.visited, ∀ p ∈ st.pending, st.distances u ≤ st.distances p.id
  popsMono : (st.pops.map fun v => st.distances v.id).Pairwise (· ≤ ·)
  startVis : st.pops = [] ∨ startId ∈ st.visited
  popsNil : st.pops = [] → st.distances = initDistances nodes startId
  prevStart : startId ∈ nodes.map Node.id → st.previous startId = some none
  prevSound : ∀ v u : ℕ, st.previous v = some (some u) → u ∈ st.visited ∧ v ≠ startId ∧
    ∃ e ∈ edges, incident u e ∧ (neighborOf u e).id = v ∧
      st.distances v = st.distances u + (e.weight : WithTop ℚ)
  prevOrder : ∀ v u : ℕ, st.previous v = some (some u) → v ∈ st.visited →
    idxIn (st.pops.map Node.id) u < idxIn (st.pops.map Node.id) v
  finPrev : ∀ v : ℕ, v ≠ startId → st.distances v ≠ ⊤ → ∃ u, st.previous v = some (some u)

theorem loopInv_init (nodes : List Node) (edges : List Edge) (startId endId : ℕ) :
    LoopInv nodes edges startId endId (initState nodes startId) := by
  refine ⟨?_, rfl, ?_, ?_, ?_, ?_, ?_, ?_, ?_, ?_, ?_, ?_, ?_, ?_, ?_⟩
  · exact List.Perm.refl nodes
  · intro k
    rw [show (initState nodes startId).distances = initDistances nodes startId from rfl,
      initDistances_eq]
    by_cases hk : k = startId <;> simp [hk]
  · exact initDistances_start nodes startId
  · intro v hv
    exact absurd hv (List.not_mem_nil v)
  · intro u hu
    exact absurd hu (List.not_mem_nil u)
  · intro u hu
    exact absurd hu (List.not_mem_nil u)
  · intro u hu
    exact absurd hu (List.not_mem_nil u)
  · exact List.Pairwise.nil
  · exact Or.inl rfl
  · intro _
    rfl
  · intro hs
    rw [show (initState nodes startId).previous = initPrevious nodes from rfl,
      initPrevious_eq, if_pos hs]
  · intro v u hvu
    have := initPrevious_eq nodes v
    rw [show (initState nodes startId).previous = initPrevious nodes from rfl] at hvu
    rw [hvu] at this
    by_cases hv : v ∈ nodes.map Node.id <;> simp [hv] at this
  · intro v u hvu hv
    have h2 := initPrevious_eq nodes v
    rw [show (initState nodes startId).previous = initPrevious nodes from rfl] at hvu
    rw [hvu] at h2
    by_cases hmem : v ∈ nodes.map Node.id <;> simp [hmem] at h2
  · intro v hv hfin
    exfalso
    apply hfin
    rw [show (initState nodes startId).distances = initDistances nodes startId from rfl,
      initDistances_eq, if_neg hv]

/-- Invariant carried through the relaxation foldl of one loop iteration.
st is the state at the top of the iteration, current the node just shifted
and visited, rest the remaining pending nodes, done the prefix of incident
edges already examined, s the evolving state. -/
structure RelaxInv (nodes : List Node) (edges : List Edge) (startId : ℕ) (current : Node)
    (st : DijkstraState) (rest : List Node) (done : List Edge) (s : DijkstraState) : Prop where
  vis : s.visited = current.id :: st.visited
  pend : s.pending = rest
  pops : s.pops = st.pops ++ [current]
  nonneg : ∀ k, 0 ≤ s.distances k
  dStart : s.distances startId = 0
  frozen : ∀ u ∈ s.visited, s.distances u = st.distances u
  frontier : ∀ u ∈ s.visited, ∀ p ∈ rest, s.distances u ≤ s.distances p.id
  leCur : ∀ u ∈ s.visited, s.distances u ≤ s.distances current.id
  oldRelaxed : ∀ u ∈ st.visited, ∀ e ∈ edges, incident u e →
    s.distances (neighborOf u e).id ≤ s.distances u + (e.weight : WithTop ℚ)
  doneRelaxed : ∀ e ∈ done, s.distances (neighborOf current.id e).id ≤
    s.distances current.id + (e.weight : WithTop ℚ)
  prevStart : startId ∈ nodes.map Node.id → s.previous startId = some none
  prevSound : ∀ v u : ℕ, s.previous v = some (some u) → u ∈ s.visited ∧ v ≠ startId ∧
    ∃ e ∈ edges, incident u e ∧ (neighborOf u e).id = v ∧
      s.distances v = s.distances u + (e.weight : WithTop ℚ)
  prevOrder : ∀ v u : ℕ, s.previous v = some (some u) → v ∈ s.visited →
    idxIn ((st.pops ++ [current]).map Node.id) u <
      idxIn ((st.pops ++ [current]).map Node.id) v
  finPrev : ∀ v : ℕ, v ≠ startId → s.distances v ≠ ⊤ → ∃ u, s.previous v = some (some u)

theorem relaxInv_step {nodes : List Node} {edges : List Edge} {startId : ℕ} {current : Node}
    {st : DijkstraState} {rest : List Node} {done : List Edge} {s : DijkstraState}
    (hw : ∀ e' ∈ edges, 0 ≤ e'.weight)
    (h : RelaxInv nodes edges startId current st rest done s)
    {e : Edge} (he : e ∈ edges) (hinc : incident current.id e) :
    RelaxInv nodes edges startId current st rest (done ++ [e]) (relaxEdge current s e) := by
  have hcurvis : current.id ∈ s.visited := by
    rw [h.vis]
    exact List.mem_cons_self _ _
  have hwe : (0 : WithTop ℚ) ≤ (e.weight : WithTop ℚ) := by
    exact_mod_cast hw e he
  rcases relaxEdge_cases current s e with ⟨heq, hno⟩ | ⟨hnv, hlt, heq⟩
  · rw [heq]
    have hdone : s.distances (neighborOf current.id e).id ≤
        s.distances current.id + (e.weight : WithTop ℚ) := by
      by_cases hv : (neighborOf current.id e).id ∈ s.visited
      · exact le_trans (h.leCur _ hv) (le_add_of_nonneg_right hwe)
      · have h2 : ¬(s.distances current.id + (e.weight : WithTop ℚ) <
            s.distances (neighborOf current.id e).id) := fun hlt => hno ⟨hv, hlt⟩
        exact not_lt.mp h2
    refine ⟨h.vis, h.pend, h.pops, h.nonneg, h.dStart, h.frozen, h.frontier, h.leCur,
      h.oldRelaxed, ?_, h.prevStart, h.prevSound, h.prevOrder, h.finPrev⟩
    intro e' he'
    rcases List.mem_append.mp he' with h1 | h1
    · exact h.doneRelaxed e' h1
    · rcases List.mem_singleton.mp h1 with rfl
      exact hdone
  · have hnbne_cur : current.id ≠ (neighborOf current.id e).id :=
      fun hh => hnv (hh ▸ hcurvis)
    have hnewd_nonneg : (0 : WithTop ℚ) ≤
        s.distances current.id + (e.weight : WithTop ℚ) :=
      add_nonneg (h.nonneg _) hwe
    have hnbne_start : startId ≠ (neighborOf current.id e).id := by
      intro hh
      rw [← hh, h.dStart] at hlt
      exact absurd hlt (not_lt.mpr hnewd_nonneg)
    rw [heq]
    refine ⟨h.vis, h.pend, h.pops, ?_, ?_, ?_, ?_, ?_, ?_, ?_, ?_, ?_, ?_, ?_⟩
    · -- nonneg
      intro k
      show 0 ≤ updFn s.distances (neighborOf current.id e).id
        (s.distances current.id + (e.weight : WithTop ℚ)) k
      by_cases hk : k = (neighborOf current.id e).id
      · subst hk
        rw [updFn_self]
        exact hnewd_nonneg
      · rw [updFn_ne _ _ _ hk]
        exact h.nonneg k
    · -- dStart
      show updFn s.distances (neighborOf current.id e).id
        (s.distances current.id + (e.weight : WithTop ℚ)) startId = 0
      rw [updFn_ne _ _ _ hnbne_start]
      exact h.dStart
    · -- frozen
      intro u hu
      have hune : u ≠ (neighborOf current.id e).id := fun hh => hnv (hh ▸ hu)
      show updFn s.distances (neighborOf current.id e).id
        (s.distances current.id + (e.weight : WithTop ℚ)) u = st.distances u
      rw [updFn_ne _ _ _ hune]
      exact h.frozen u hu
    · -- frontier
      intro u hu p hp
      have hune : u ≠ (neighborOf current.id e).id := fun hh => hnv (hh ▸ hu)
      show updFn s.distances (neighborOf current.id e).id
          (s.distances current.id + (e.weight : WithTop ℚ)) u ≤
        updFn s.distances (neighborOf current.id e).id
          (s.distances current.id + (e.weight : WithTop ℚ)) p.id
      rw [updFn_ne _ _ _ hune]
      by_cases hpk : p.id = (neighborOf current.id e).id
      · rw [hpk, updFn_self]
        exact le_trans (h.leCur u hu) (le_add_of_nonneg_right hwe)
      · rw [updFn_ne _ _ _ hpk]
        exact h.frontier u hu p hp
    · -- leCur
      intro u hu
      have hune : u ≠ (neighborOf current.id e).id := fun hh => hnv (hh ▸ hu)
      show updFn s.distances (neighborOf current.id e).id
          (s.distances current.id + (e.weight : WithTop ℚ)) u ≤
        updFn s.distances (neighborOf current.id e).id
          (s.distances current.id + (e.weight : WithTop ℚ)) current.id
      rw [updFn_ne _ _ _ hune, updFn_ne _ _ _ hnbne_cur]
      exact h.leCur u hu
    · -- oldRelaxed
      intro u hu e' he' hinc'
      have huvis : u ∈ s.visited := by
        rw [h.vis]
        exact List.mem_cons_of_mem _ hu
      have hune : u ≠ (neighborOf current.id e).id := fun hh => hnv (hh ▸ huvis)
      show updFn s.distances (neighborOf current.id e).id
          (s.distances current.id + (e.weight : WithTop ℚ)) (neighborOf u e').id ≤
        updFn s.distances (neighborOf current.id e).id
          (s.distances current.id + (e.weight : WithTop ℚ)) u + (e'.weight : WithTop ℚ)
      rw [updFn_ne _ _ _ hune]
      by_cases hnk : (neighborOf u e').id = (neighborOf current.id e).id
      · rw [hnk, updFn_self]
        exact le_trans (le_of_lt hlt) (hnk ▸ h.oldRelaxed u hu e' he' hinc')
      · rw [updFn_ne _ _ _ hnk]
        exact h.oldRelaxed u hu e' he' hinc'
    · -- doneRelaxed
      intro e' he'
      show updFn s.distances (neighborOf current.id e).id
          (s.distances current.id + (e.weight : WithTop ℚ)) (neighborOf current.id e').id ≤
        updFn s.distances (neighborOf current.id e).id
          (s.distances current.id + (e.weight : WithTop ℚ)) current.id + (e'.weight : WithTop ℚ)
      rw [updFn_ne _ _ _ hnbne_cur]
      rcases List.mem_append.mp he' with h1 | h1
      · by_cases hnk : (neighborOf current.id e').id = (neighborOf current.id e).id
        · rw [hnk, updFn_self]
          exact le_trans (le_of_lt hlt) (hnk ▸ h.doneRelaxed e' h1)
        · rw [updFn_ne _ _ _ hnk]
          exact h.doneRelaxed e' h1
      · rcases List.mem_singleton.mp h1 with rfl
        rw [updFn_self]
    · -- prevStart
      intro hsid
      show updFn s.previous (neighborOf current.id e).id
        (some (some current.id)) startId = some none
      rw [updFn_ne _ _ _ hnbne_start]
      exact h.prevStart hsid
    · -- prevSound
      intro v u hvu
      by_cases hvk : v = (neighborOf current.id e).id
      · subst hvk
        have hvu2 : updFn s.previous (neighborOf current.id e).id
            (some (some current.id)) (neighborOf current.id e).id = some (some u) := hvu
        rw [updFn_self] at hvu2
        have hu : u = current.id := by
          injection hvu2 with h2
          injection h2 with h3
          exact h3.symm
        subst hu
        refine ⟨hcurvis, Ne.symm hnbne_start, e, he, hinc, rfl, ?_⟩
        show updFn s.distances (neighborOf current.id e).id
            (s.distances current.id + (e.weight : WithTop ℚ)) (neighborOf current.id e).id =
          updFn s.distances (neighborOf current.id e).id
            (s.distances current.id + (e.weight : WithTop ℚ)) current.id + (e.weight : WithTop ℚ)
        rw [updFn_self, updFn_ne _ _ _ hnbne_cur]
      · have hvu2 : updFn s.previous (neighborOf current.id e).id
            (some (some current.id)) v = some (some u) := hvu
        rw [updFn_ne _ _ _ hvk] at hvu2
        obtain ⟨hu, hvs, e', he', hinc', hnb', hdv⟩ := h.prevSound v u hvu2
        have hune : u ≠ (neighborOf current.id e).id := fun hh => hnv (hh ▸ hu)
        refine ⟨hu, hvs, e', he', hinc', hnb', ?_⟩
        show updFn s.distances (neighborOf current.id e).id
            (s.distances current.id + (e.weight : WithTop ℚ)) v =
          updFn s.distances (neighborOf current.id e).id
            (s.distances current.id + (e.weight : WithTop ℚ)) u + (e'.weight : WithTop ℚ)
        rw [updFn_ne _ _ _ hvk, updFn_ne _ _ _ hune]
        exact hdv
    · -- prevOrder
      intro v u hvu hvvis
      by_cases hvk : v = (neighborOf current.id e).id
      · exact absurd (hvk ▸ hvvis) hnv
      · have hvu2 : updFn s.previous (neighborOf current.id e).id
            (some (some current.id)) v = some (some u) := hvu
        rw [updFn_ne _ _ _ hvk] at hvu2
        exact h.prevOrder v u hvu2 hvvis
    · -- finPrev
      intro v hvs hfin
      by_cases hvk : v = (neighborOf current.id e).id
      · subst hvk
        exact ⟨current.id, updFn_self ..⟩
      · show ∃ u, updFn s.previous (neighborOf current.id e).id
            (some (some current.id)) v = some (some u)
        rw [updFn_ne _ _ _ hvk]
        apply h.finPrev v hvs
        have hfin2 : updFn s.distances (neighborOf current.id e).id
            (s.distances current.id + (e.weight : WithTop ℚ)) v ≠ ⊤ := hfin
        rw [updFn_ne _ _ _ hvk] at hfin2
        exact hfin2

theorem relaxInv_foldl {nodes : List Node} {edges : List Edge} {startId : ℕ} {current : Node}
    {st : DijkstraState} {rest : List Node}
    (hw : ∀ e' ∈ edges, 0 ≤ e'.weight) :
    ∀ (es done : List Edge) (s : DijkstraState),
      (∀ e ∈ es, e ∈ edges ∧ incident current.id e) →
      RelaxInv nodes edges startId current st rest done s →
      RelaxInv nodes edges startId current st rest (done ++ es)
        (es.foldl (relaxEdge current) s) := by
  intro es
  induction es with
  | nil =>
    intro done s _ h
    rw [List.append_nil]
    exact h
  | cons e es' ih =>
    intro done s hes h
    have he := hes e (List.mem_cons_self _ _)
    have h1 := relaxInv_step hw h he.1 he.2
    have h2 := ih (done ++ [e]) (relaxEdge current s e)
      (fun e' he' => hes e' (List.mem_cons_of_mem _ he')) h1
    rwa [List.append_cons]

theorem loopInv_step {nodes : List Node} {edges : List Edge} {startId endId : ℕ}
    {st : DijkstraState} (hs : startId ∈ nodes.map Node.id)
    (hnd : (nodes.map Node.id).Nodup) (hw : ∀ e ∈ edges, 0 ≤ e.weight)
    (hinv : LoopInv nodes edges startId endId st)
    {current : Node} {rest : List Node}
    (hsort : sortPend st.distances st.pending = current :: rest)
    (hfin : st.distances current.id ≠ ⊤) (hne : current.id ≠ endId) :
    LoopInv nodes edges startId endId
      (relaxAll edges current
        { st with
          pending := rest
          visited := current.id :: st.visited
          pops := st.pops ++ [current] }) := by
  have hmin := sortPend_head_min st.distances hsort
  have hcurpend : current ∈ st.pending := hmin.1
  have hrest_sub : ∀ p ∈ rest, p ∈ st.pending := by
    intro p hp
    rw [← mem_sortPend st.distances (l := st.pending), hsort]
    exact List.mem_cons_of_mem _ hp
  have hsortperm : List.Perm (current :: rest) st.pending := by
    rw [← hsort]
    exact sortPend_perm st.distances st.pending
  have hperm_ids : List.Perm ((st.pops ++ st.pending).map Node.id) (nodes.map Node.id) :=
    hinv.perm.map _
  have hnd2 : ((st.pops ++ st.pending).map Node.id).Nodup :=
    hperm_ids.nodup_iff.mpr hnd
  rw [List.map_append] at hnd2
  have hdisj : (st.pops.map Node.id).Disjoint (st.pending.map Node.id) :=
    (List.nodup_append.mp hnd2).2.2
  have hcur_not_pops : current.id ∉ st.pops.map Node.id :=
    fun hmem => hdisj hmem (List.mem_map_of_mem _ hcurpend)
  have hcur_not_vis : current.id ∉ st.visited := by
    rw [hinv.visEq, List.mem_reverse]
    exact hcur_not_pops
  have hR0 : RelaxInv nodes edges startId current st rest []
      { st with
        pending := rest
        visited := current.id :: st.visited
        pops := st.pops ++ [current] } := by
    refine ⟨rfl, rfl, rfl, hinv.nonneg, hinv.dStart, fun u _ => rfl, ?_, ?_, hinv.relaxed,
      fun e h => absurd h (List.not_mem_nil e), hinv.prevStart, ?_, ?_, hinv.finPrev⟩
    · intro u hu p hp
      rcases List.mem_cons.mp (show u ∈ current.id :: st.visited from hu) with rfl | hu'
      · exact hmin.2 p (hrest_sub p hp)
      · exact hinv.frontier u hu' p (hrest_sub p hp)
    · intro u hu
      rcases List.mem_cons.mp (show u ∈ current.id :: st.visited from hu) with rfl | hu'
      · exact le_refl _
      · exact hinv.frontier u hu' current hcurpend
    · intro v u hvu
      obtain ⟨hu, hvs, e', he', hinc', hnb', hdv⟩ := hinv.prevSound v u hvu
      exact ⟨List.mem_cons_of_mem _ hu, hvs, e', he', hinc', hnb', hdv⟩
    · intro v u hvu hvvis
      obtain ⟨hu, -, -⟩ := hinv.prevSound v u hvu
      have huid : u ∈ st.pops.map Node.id := by
        rw [← List.mem_reverse, ← hinv.visEq]
        exact hu
      have hidxu : idxIn ((st.pops ++ [current]).map Node.id) u =
          idxIn (st.pops.map Node.id) u := by
        rw [List.map_append]
        exact idxIn_append_of_mem huid _
      rcases List.mem_cons.mp (show v ∈ current.id :: st.visited from hvvis) with rfl | hv'
      · rw [hidxu, List.map_append,
          show ([current].map Node.id) = [current.id] from rfl,
          idxIn_append_self hcur_not_pops]
        exact idxIn_lt_length huid
      · have hvid : v ∈ st.pops.map Node.id := by
          rw [← List.mem_reverse, ← hinv.visEq]
          exact hv'
        rw [hidxu, List.map_append,
          show ([current].map Node.id) = [current.id] from rfl,
          idxIn_append_of_mem hvid _]
        exact hinv.prevOrder v u hvu hv'
  have hRfin : RelaxInv nodes edges startId current st rest
      (edges.filter fun e => decide (incident current.id e))
      (relaxAll edges current
        { st with
          pending := rest
          visited := current.id :: st.visited
          pops := st.pops ++ [current] }) := by
    have h2 := relaxInv_foldl hw (edges.filter fun e => decide (incident current.id e)) []
      { st with
        pending := rest
        visited := current.id :: st.visited
        pops := st.pops ++ [current] }
      (fun e hef => by
        rw [List.mem_filter] at hef
        exact ⟨hef.1, of_decide_eq_true hef.2⟩) hR0
    exact h2
  refine ⟨?_, ?_, hRfin.nonneg, hRfin.dStart, ?_, ?_, ?_, ?_, ?_, ?_, ?_, hRfin.prevStart,
    hRfin.prevSound, ?_, hRfin.finPrev⟩
  · rw [hRfin.pops, hRfin.pend, List.append_assoc]
    exact (List.Perm.append_left st.pops hsortperm).trans hinv.perm
  · rw [hRfin.vis, hRfin.pops, List.map_append, List.reverse_append,
      show ([current].map Node.id) = [current.id] from rfl]
    rw [hinv.visEq]
    rfl
  · intro v hv
    rw [hRfin.pops] at hv
    rcases List.mem_append.mp hv with h1 | h1
    · exact hinv.popsNeEnd v h1
    · rcases List.mem_singleton.mp h1 with rfl
      exact hne
  · intro u hu
    rw [hRfin.frozen u hu]
    rw [hRfin.vis] at hu
    rcases List.mem_cons.mp hu with rfl | hu'
    · exact hfin
    · exact hinv.finVis u hu'
  · intro u hu e he hince
    have hu2 := hu
    rw [hRfin.vis] at hu2
    rcases List.mem_cons.mp hu2 with rfl | hu'
    · refine hRfin.doneRelaxed e ?_
      rw [List.mem_filter]
      exact ⟨he, decide_eq_true hince⟩
    · exact hRfin.oldRelaxed u hu' e he hince
  · intro u hu p hp
    rw [hRfin.pend] at hp
    exact hRfin.frontier u hu p hp
  · have hsub : ∀ v ∈ st.pops ++ [current], v.id ∈
        (relaxAll edges current
          { st with
            pending := rest
            visited := current.id :: st.visited
            pops := st.pops ++ [current] }).visited := by
      intro v hv
      rw [hRfin.vis]
      rcases List.mem_append.mp hv with h1 | h1
      · refine List.mem_cons_of_mem _ ?_
        rw [hinv.visEq, List.mem_reverse]
        exact List.mem_map_of_mem _ h1
      · rcases List.mem_singleton.mp h1 with rfl
        exact List.mem_cons_self _ _
    rw [hRfin.pops]
    rw [List.map_congr_left (fun v hv => hRfin.frozen v.id (hsub v hv))]
    rw [List.map_append]
    rw [List.pairwise_append]
    refine ⟨hinv.popsMono, List.pairwise_singleton _ _, ?_⟩
    intro a ha b hb
    rw [List.mem_map] at ha
    obtain ⟨p, hp, rfl⟩ := ha
    rcases List.mem_singleton.mp hb with rfl
    show st.distances p.id ≤ st.distances current.id
    have hpid : p.id ∈ st.visited := by
      rw [hinv.visEq, List.mem_reverse]
      exact List.mem_map_of_mem _ hp
    exact hinv.frontier p.id hpid current hcurpend
  · right
    rw [hRfin.vis]
    rcases hinv.startVis with hpops0 | hsvis
    · have hpend_perm : List.Perm st.pending nodes := by
        have h2 := hinv.perm
        rw [hpops0, List.nil_append] at h2
        exact h2
      obtain ⟨ns, hns, hnsid⟩ := List.mem_map.mp hs
      have hnspend : ns ∈ st.pending := hpend_perm.mem_iff.mpr hns
      have hld := hmin.2 ns hnspend
      rw [hinv.popsNil hpops0, hnsid, initDistances_start] at hld
      have hge := hinv.nonneg current.id
      rw [hinv.popsNil hpops0] at hge
      have h0 : initDistances nodes startId current.id = 0 := le_antisymm hld hge
      rw [initDistances_eq_zero_iff] at h0
      rw [← h0]
      exact List.mem_cons_self _ _
    · exact List.mem_cons_of_mem _ hsvis
  · intro hpops
    rw [hRfin.pops] at hpops
    exact absurd hpops (by simp)
  · intro v u hvu hvvis
    rw [hRfin.pops]
    exact hRfin.prevOrder v u hvu hvvis

theorem dijkstraLoop_popsMono {nodes : List Node} {edges : List Edge} {startId endId : ℕ}
    (hs : startId ∈ nodes.map Node.id) (hnd : (nodes.map Node.id).Nodup)
    (hw : ∀ e ∈ edges, 0 ≤ e.weight) :
    ∀ (fuel : ℕ) (st : DijkstraState), LoopInv nodes edges startId endId st →
      ((dijkstraLoop edges endId fuel st).pops.map
        fun v => (dijkstraLoop edges endId fuel st).distances v.id).Pairwise (· ≤ ·) := by
  intro fuel
  induction fuel with
  | zero =>
    intro st hinv
    exact hinv.popsMono
  | succ n ih =>
    intro st hinv
    cases hsort : sortPend st.distances st.pending with
    | nil =>
      rw [dijkstraLoop_nil_sort edges endId n st hsort]
      exact hinv.popsMono
    | cons current rest =>
      rw [dijkstraLoop_cons edges endId n st hsort]
      by_cases htop : st.distances current.id = ⊤
      · rw [if_pos htop]
        exact hinv.popsMono
      · rw [if_neg htop]
        by_cases hend : current.id = endId
        · rw [if_pos hend]
          exact hinv.popsMono
        · rw [if_neg hend]
          exact ih _ (loopInv_step hs hnd hw hinv hsort htop hend)

/-- Claim C10: over any graph produced by generateNodes and generateEdges and
any in-graph endpoints, the tentative distances of the nodes selected and
visited by the main loop (the onStep sequence) form a non-decreasing sequence.
Every generated edge weight is a squared Euclidean distance, hence
nonnegative, which is what makes the popped distances monotone. -/
theorem generated_pops_monotone (count : ℕ) (width height : ℚ) (rand : ℕ → ℚ)
    (maxDistance : ℚ) (startId endId : ℕ)
    (hs : startId ∈ (generateNodes count width height rand).map Node.id)
    (he : endId ∈ (generateNodes count width height rand).map Node.id) :
    ((dijkstraRun (generateNodes count width height rand)
        (generateEdges (generateNodes count width height rand) maxDistance)
        startId endId).pops.map
      fun v => (dijkstraRun (generateNodes count width height rand)
        (generateEdges (generateNodes count width height rand) maxDistance)
        startId endId).distances v.id).Pairwise (· ≤ ·) := by
  have hnd : ((generateNodes count width height rand).map Node.id).Nodup := by
    unfold generateNodes
    rw [List.map_map]
    have h2 : (Node.id ∘ fun i =>
        ({ id := i, x := rand (2 * i) * width, y := rand (2 * i + 1) * height } : Node)) =
        fun i => i := rfl
    rw [h2]
    exact (List.nodup_range count).map (fun a b h => h)
  have hw : ∀ e ∈ generateEdges (generateNodes count width height rand) maxDistance,
      0 ≤ e.weight := by
    intro e hmem
    rw [mem_generateEdges] at hmem
    obtain ⟨a, -, b, -, -, -, rfl⟩ := hmem
    exact calculateDistanceSq_nonneg a b
  exact dijkstraLoop_popsMono hs hnd hw (generateNodes count width height rand).length
    (initState (generateNodes count width height rand) startId)
    (loopInv_init (generateNodes count width height rand) _ startId endId)

/-- Witness for C10 on a concrete generated graph. -/
theorem generated_pops_monotone_witness :
    ((dijkstraRun (generateNodes 1 1 1 fun _ => 0)
        (generateEdges (generateNodes 1 1 1 fun _ => 0) 1) 0 0).pops.map
      fun v => (dijkstraRun (generateNodes 1 1 1 fun _ => 0)
        (generateEdges (generateNodes 1 1 1 fun _ => 0) 1) 0 0).distances v.id).Pairwise
      (· ≤ ·) :=
  generated_pops_monotone 1 1 1 (fun _ => 0) 1 0 0
    (by simp [generateNodes]) (by simp [generateNodes])

theorem relaxAll_pending (edges : List Edge) (current : Node) (st : DijkstraState) :
    (relaxAll edges current st).pending = st.pending := by
  unfold relaxAll
  generalize edges.filter (fun e => decide (incident current.id e)) = es
  induction es generalizing st with
  | nil => rfl
  | cons e es ih =>
    rw [List.foldl_cons, ih, relaxEdge_pending]

theorem dijkstraLoop_final {nodes : List Node} {edges : List Edge} {startId endId : ℕ}
    (hs : startId ∈ nodes.map Node.id) (hnd : (nodes.map Node.id).Nodup)
    (hw : ∀ e ∈ edges, 0 ≤ e.weight) :
    ∀ (fuel : ℕ) (st : DijkstraState), LoopInv nodes edges startId endId st →
      st.pending.length = fuel →
      ∃ stF, dijkstraLoop edges endId fuel st = stF ∧
        ((LoopInv nodes edges startId endId stF ∧ stF.pending = []) ∨
          ∃ stPre current rest, LoopInv nodes edges startId endId stPre ∧
            sortPend stPre.distances stPre.pending = current :: rest ∧
            stF = { stPre with pending := rest } ∧
            (stPre.distances current.id = ⊤ ∨
              (stPre.distances current.id ≠ ⊤ ∧ current.id = endId))) := by
  intro fuel
  induction fuel with
  | zero =>
    intro st hinv hlen
    exact ⟨st, rfl, Or.inl ⟨hinv, List.length_eq_zero.mp hlen⟩⟩
  | succ n ih =>
    intro st hinv hlen
    cases hsort : sortPend st.distances st.pending with
    | nil =>
      exfalso
      have h2 := sortPend_length st.distances st.pending
      rw [hsort, hlen] at h2
      exact Nat.succ_ne_zero n h2.symm
    | cons current rest =>
      rw [dijkstraLoop_cons edges endId n st hsort]
      by_cases htop : st.distances current.id = ⊤
      · rw [if_pos htop]
        exact ⟨_, rfl, Or.inr ⟨st, current, rest, hinv, hsort, rfl, Or.inl htop⟩⟩
      · rw [if_neg htop]
        by_cases hend : current.id = endId
        · rw [if_pos hend]
          exact ⟨_, rfl, Or.inr ⟨st, current, rest, hinv, hsort, rfl, Or.inr ⟨htop, hend⟩⟩⟩
        · rw [if_neg hend]
          have hlen2 : (relaxAll edges current
              { st with
                pending := rest
                visited := current.id :: st.visited
                pops := st.pops ++ [current] }).pending.length = n := by
            rw [relaxAll_pending]
            show rest.length = n
            have h2 := sortPend_length st.distances st.pending
            rw [hsort, hlen, List.length_cons] at h2
            omega
          exact ih _ (loopInv_step hs hnd hw hinv hsort htop hend) hlen2

theorem chain_reconstruct {nodes : List Node} {edges : List Edge} {startId endId : ℕ}
    {st : DijkstraState} (hinv : LoopInv nodes edges startId endId st)
    (hs : startId ∈ nodes.map Node.id) :
    ∀ (n v : ℕ), v ∈ st.visited → idxIn (st.pops.map Node.id) v < n →
      ∃ (p : List ℕ) (wq : ℚ), IsPath edges p wq ∧ p.head? = some startId ∧
        p.getLast? = some v ∧ (wq : WithTop ℚ) = st.distances v ∧
        p.length ≤ idxIn (st.pops.map Node.id) v + 1 ∧
        ∀ fuel acc, p.length + 1 ≤ fuel →
          walkPrev st.previous fuel (some (some v)) acc = some (p ++ acc) := by
  intro n
  induction n with
  | zero =>
    intro v _ hlt
    exact absurd hlt (Nat.not_lt_zero _)
  | succ n ih =>
    intro v hvis hlt
    by_cases hv : v = startId
    · subst hv
      refine ⟨[v], 0, IsPath.single v, rfl, rfl, ?_, ?_, ?_⟩
      · rw [hinv.dStart]
        rfl
      · exact Nat.succ_le_succ (Nat.zero_le _)
      · intro fuel acc hfuel
        cases fuel with
        | zero => exact absurd hfuel (by simp)
        | succ f =>
          have hstep : walkPrev st.previous (f + 1) (some (some v)) acc =
              walkPrev st.previous f (st.previous v) (v :: acc) := rfl
          rw [hstep, hinv.prevStart hs]
          cases f with
          | zero => exact absurd hfuel (by simp)
          | succ f2 => rfl
    · have hfin : st.distances v ≠ ⊤ := hinv.finVis v hvis
      obtain ⟨u, hu⟩ := hinv.finPrev v hv hfin
      obtain ⟨huvis, -, e, he, hinc, hnb, hdv⟩ := hinv.prevSound v u hu
      have hord := hinv.prevOrder v u hu hvis
      have hult : idxIn (st.pops.map Node.id) u < n :=
        Nat.lt_of_lt_of_le hord (Nat.lt_succ_iff.mp hlt)
      obtain ⟨p', wq', hp', hhead', hlast', hcoe', hlen', hwalk'⟩ := ih u huvis hult
      have hconn : EdgeConnects e u v := by
        have h2 := edgeConnects_of_incident hinc
        rwa [hnb] at h2
      refine ⟨p' ++ [v], wq' + e.weight, isPath_append_one hp' hlast' he hconn, ?_, ?_,
        ?_, ?_, ?_⟩
      · cases p' with
        | nil => exact absurd hhead' (by simp)
        | cons a t => exact hhead'
      · rw [List.getLast?_concat]
      · rw [WithTop.coe_add, hcoe', hdv]
      · rw [List.length_append, List.length_singleton]
        have h2 : p'.length ≤ idxIn (st.pops.map Node.id) v :=
          Nat.le_trans hlen' (Nat.succ_le_of_lt hord)
        omega
      · intro fuel acc hfuel
        cases fuel with
        | zero => exact absurd hfuel (by simp)
        | succ f =>
          have hstep : walkPrev st.previous (f + 1) (some (some v)) acc =
              walkPrev st.previous f (st.previous v) (v :: acc) := rfl
          rw [hstep, hu, hwalk' f (v :: acc) (by
            rw [List.length_append] at hfuel
            simp only [List.length_singleton] at hfuel
            omega)]
          rw [List.append_assoc]
          rfl

/-- Claim C3: for every well-formed graph and endpoints present in the graph
with endId reachable from startId, dijkstra returns a path: a vertex sequence
from startId to endId whose consecutive pairs are joined by edges of the
graph, with IsPath certifying that wq is the sum of those edges' weights, and
no walk in the graph from startId to endId has total weight strictly below
wq. -/
theorem dijkstra_shortest_path (nodes : List Node) (edges : List Edge)
    (startId endId : ℕ) (hwf : WF nodes edges)
    (hs : startId ∈ nodes.map Node.id) (he : endId ∈ nodes.map Node.id)
    (hreach : ∃ (p : List ℕ) (w : ℚ), IsPath edges p w ∧ p.head? = some startId ∧
      p.getLast? = some endId) :
    ∃ (p : List ℕ) (wq : ℚ), (dijkstra nodes edges startId endId).path = some p ∧
      p.head? = some startId ∧ p.getLast? = some endId ∧ IsPath edges p wq ∧
      ∀ (q : List ℕ) (w' : ℚ), IsPath edges q w' → q.head? = some startId →
        q.getLast? = some endId → wq ≤ w' := by
  by_cases hse : startId = endId
  · subst hse
    obtain ⟨heq, -⟩ := dijkstra_self_aux nodes edges startId hs
    refine ⟨[startId], 0, by rw [heq], rfl, rfl, IsPath.single _, ?_⟩
    intro q w' hq _ _
    exact isPath_nonneg hwf.wNonneg hq
  · obtain ⟨stF, hloopeq, hres⟩ := dijkstraLoop_final hs hwf.nodup hwf.wNonneg
      nodes.length (initState nodes startId) (loopInv_init nodes edges startId endId) rfl
    rcases hres with ⟨hinvF, hpendF⟩ | ⟨stPre, current, rest, hinv, hsort, hstF, hbreak⟩
    · exfalso
      obtain ⟨ne, hne, hneid⟩ := List.mem_map.mp he
      have h2 : ne ∈ stF.pops ++ stF.pending := hinvF.perm.mem_iff.mpr hne
      rw [hpendF, List.append_nil] at h2
      exact (hinvF.popsNeEnd ne h2) hneid
    · have hmin := sortPend_head_min stPre.distances hsort
      obtain ⟨ns, hns, hnsid⟩ := List.mem_map.mp hs
      have hns_cases : ns ∈ stPre.pops ∨ ns ∈ stPre.pending :=
        List.mem_append.mp (hinv.perm.mem_iff.mpr hns)
      obtain ⟨ne, hne, hneid⟩ := List.mem_map.mp he
      have hne_pend : ne ∈ stPre.pending := by
        rcases List.mem_append.mp (hinv.perm.mem_iff.mpr hne) with h3 | h3
        · exact absurd hneid (hinv.popsNeEnd ne h3)
        · exact h3
      rcases hbreak with htop | ⟨hfin, hend⟩
      · exfalso
        have hpend_top : ∀ p ∈ stPre.pending, stPre.distances p.id = ⊤ := by
          intro p hp
          have h2 := hmin.2 p hp
          rw [htop] at h2
          exact top_le_iff.mp h2
        rcases hns_cases with hns_pops | hns_pend
        · have hsvis : startId ∈ stPre.visited := by
            rw [hinv.visEq, List.mem_reverse]
            exact hnsid ▸ List.mem_map_of_mem Node.id hns_pops
          obtain ⟨pw, w0, hpw, hhead, hlast⟩ := hreach
          rcases walk_lb stPre hwf.wNonneg hinv.relaxed hpw startId endId hhead hlast hsvis
            with hle | ⟨y, hy, hyv, hyle⟩
          · have hdend : stPre.distances endId = ⊤ := hneid ▸ hpend_top ne hne_pend
            rw [hdend, hinv.dStart, zero_add] at hle
            exact absurd (top_le_iff.mp hle) WithTop.coe_ne_top
          · have hyids : y ∈ nodes.map Node.id :=
              isPath_mem_ids hwf.srcMem hwf.tgtMem hpw hhead hs y hy
            obtain ⟨ny, hny, hnyid⟩ := List.mem_map.mp hyids
            have hny_pend : ny ∈ stPre.pending := by
              rcases List.mem_append.mp (hinv.perm.mem_iff.mpr hny) with h3 | h3
              · exfalso
                apply hyv
                rw [hinv.visEq, List.mem_reverse]
                exact hnyid ▸ List.mem_map_of_mem Node.id h3
              · exact h3
            have hdy : stPre.distances y = ⊤ := hnyid ▸ hpend_top ny hny_pend
            rw [hdy, hinv.dStart, zero_add] at hyle
            exact absurd (top_le_iff.mp hyle) WithTop.coe_ne_top
        · have h2 := hmin.2 ns hns_pend
          rw [hnsid, hinv.dStart, htop] at h2
          exact absurd (top_le_iff.mp h2) (by simp)
      · have hend_ne_start : endId ≠ startId := fun h => hse h.symm
        have hdend_fin : stPre.distances endId ≠ ⊤ := hend ▸ hfin
        obtain ⟨u, hu⟩ := hinv.finPrev endId hend_ne_start hdend_fin
        obtain ⟨huvis, -, e0, he0, hinc0, hnb0, hdend⟩ := hinv.prevSound endId u hu
        have huid_pops : u ∈ stPre.pops.map Node.id := by
          rw [← List.mem_reverse, ← hinv.visEq]
          exact huvis
        obtain ⟨p', wq', hp', hhead', hlast', hcoe', hlen', hwalk'⟩ :=
          chain_reconstruct hinv hs (stPre.pops.map Node.id).length u huvis
            (idxIn_lt_length huid_pops)
        have hconn : EdgeConnects e0 u endId := by
          have h2 := edgeConnects_of_incident hinc0
          rwa [hnb0] at h2
        have hlen_bound : p'.length + 2 ≤ nodes.length + 1 := by
          have h2 : p'.length ≤ (stPre.pops.map Node.id).length :=
            Nat.le_trans hlen' (Nat.succ_le_of_lt (idxIn_lt_length huid_pops))
          have h3 : stPre.pops.length + stPre.pending.length = nodes.length := by
            have h4 := hinv.perm.length_eq
            rw [List.length_append] at h4
            exact h4
          have h5 : 1 ≤ stPre.pending.length :=
            List.length_pos.mpr (List.ne_nil_of_mem hne_pend)
          rw [List.length_map] at h2
          omega
        have hcoe_end : ((wq' + e0.weight : ℚ) : WithTop ℚ) = stPre.distances endId := by
          rw [WithTop.coe_add, hcoe', hdend]
        refine ⟨p' ++ [endId], wq' + e0.weight, ?_, ?_, ?_,
          isPath_append_one hp' hlast' he0 hconn, ?_⟩
        · have hwalk_end : walkPrev stPre.previous (nodes.length + 1)
              (some (some endId)) [] = some (p' ++ [endId]) := by
            have hstep : walkPrev stPre.previous (nodes.length + 1)
                (some (some endId)) [] =
                walkPrev stPre.previous nodes.length (stPre.previous endId) [endId] := rfl
            rw [hstep, hu, hwalk' nodes.length [endId] (by omega)]
          have hpath : (dijkstra nodes edges startId endId).path =
              walkPrev (dijkstraRun nodes edges startId endId).previous
                (nodes.length + 1) (some (some endId)) [] := rfl
          rw [hpath, show dijkstraRun nodes edges startId endId = stF from hloopeq, hstF]
          exact hwalk_end
        · cases p' with
          | nil => exact absurd hhead' (by simp)
          | cons a t => exact hhead'
        · rw [List.getLast?_concat]
        · intro q w' hq hqhead hqlast
          rcases hns_cases with hns_pops | hns_pend
          · have hsvis : startId ∈ stPre.visited := by
              rw [hinv.visEq, List.mem_reverse]
              exact hnsid ▸ List.mem_map_of_mem Node.id hns_pops
            rcases walk_lb stPre hwf.wNonneg hinv.relaxed hq startId endId hqhead hqlast
              hsvis with hle | ⟨y, hy, hyv, hyle⟩
            · rw [hinv.dStart, zero_add, ← hcoe_end] at hle
              exact_mod_cast hle
            · have hyids : y ∈ nodes.map Node.id :=
                isPath_mem_ids hwf.srcMem hwf.tgtMem hq hqhead hs y hy
              obtain ⟨ny, hny, hnyid⟩ := List.mem_map.mp hyids
              have hny_pend : ny ∈ stPre.pending := by
                rcases List.mem_append.mp (hinv.perm.mem_iff.mpr hny) with h3 | h3
                · exfalso
                  apply hyv
                  rw [hinv.visEq, List.mem_reverse]
                  exact hnyid ▸ List.mem_map_of_mem Node.id h3
                · exact h3
              have hdy : stPre.distances endId ≤ stPre.distances y := by
                have h2 := hmin.2 ny hny_pend
                rw [hend, hnyid] at h2
                exact h2
              have h3 := le_trans hdy hyle
              rw [hinv.dStart, zero_add, ← hcoe_end] at h3
              exact_mod_cast h3
          · have h2 := hmin.2 ns hns_pend
            rw [hend, hnsid, hinv.dStart] at h2
            have h3 : stPre.distances endId = 0 := le_antisymm h2 (hinv.nonneg endId)
            have h4 : ((wq' + e0.weight : ℚ) : WithTop ℚ) = ((0 : ℚ) : WithTop ℚ) := by
              rw [hcoe_end, h3]
              rfl
            have h5 : (wq' + e0.weight : ℚ) = 0 := by exact_mod_cast h4
            rw [h5]
            exact isPath_nonneg hwf.wNonneg hq

/-- Witness for C3 on a concrete two-node graph with one edge. -/
theorem dijkstra_shortest_path_witness :
    ∃ (p : List ℕ) (wq : ℚ),
      (dijkstra [(⟨0, 0, 0⟩ : Node), ⟨1, 3, 4⟩]
        [⟨⟨0, 0, 0⟩, ⟨1, 3, 4⟩, 25⟩] 0 1).path = some p ∧
      p.head? = some 0 ∧ p.getLast? = some 1 ∧
      IsPath [⟨⟨0, 0, 0⟩, ⟨1, 3, 4⟩, 25⟩] p wq ∧
      ∀ (q : List ℕ) (w' : ℚ), IsPath [⟨⟨0, 0, 0⟩, ⟨1, 3, 4⟩, 25⟩] q w' →
        q.head? = some 0 → q.getLast? = some 1 → wq ≤ w' :=
  dijkstra_shortest_path [⟨0, 0, 0⟩, ⟨1, 3, 4⟩] [⟨⟨0, 0, 0⟩, ⟨1, 3, 4⟩, 25⟩] 0 1
    ⟨by decide, by decide, by decide, by decide⟩ (by decide) (by decide)
    ⟨[0, 1], (25 : ℚ) + 0,
      IsPath.cons 0 ⟨⟨0, 0, 0⟩, ⟨1, 3, 4⟩, 25⟩ (List.mem_singleton.mpr rfl)
        (Or.inl ⟨rfl, rfl⟩) (IsPath.single 1), rfl, rfl⟩
